import Mathlib

/-!
Verification development for the memctx text-chunking and vector-similarity
retrieval engine.  Go strings are modelled as `List Char` (the source operates
on ASCII command text; byte length and rune length coincide there), machine
floating point as `ℝ`, and the SQLite tables as in-memory lists of rows.
-/

set_option maxHeartbeats 1000000

namespace Memctx

/-- The whitespace predicate used by Go's `strings.TrimSpace` and
`unicode.IsSpace` on the Latin-1 range: tab, newline, vertical tab, form
feed, carriage return, space, NEL and no-break space. -/
def goIsSpace (c : Char) : Bool :=
  c = ' ' || c = '\t' || c = '\n' || c = '\x0b' || c = '\x0c' || c = '\r' ||
  c = '\x85' || c = '\xa0'

/-- Drop trailing whitespace (`strings.TrimSpace`, right side). -/
def trimRight (l : List Char) : List Char :=
  (l.reverse.dropWhile goIsSpace).reverse

/-- `strings.TrimSpace`: drop leading and trailing whitespace. -/
def trimSpace (l : List Char) : List Char :=
  trimRight (l.dropWhile goIsSpace)

/-- `strings.Split(text, "\n\n")`: split on each leftmost non-overlapping
occurrence of a blank line (two consecutive newlines), as in
`chunkText` in cmd.go. -/
def splitBlank : List Char → List (List Char)
  | [] => [[]]
  | '\n' :: '\n' :: rest => [] :: splitBlank rest
  | c :: rest =>
    match splitBlank rest with
    | [] => [[c]]
    | p :: ps => (c :: p) :: ps

/-- Sentence-terminating punctuation recognised by `splitSentences`. -/
def isSentEnd (c : Char) : Bool :=
  c = '.' || c = '!' || c = '?'

/-- The boundary check of `splitSentences`: the punctuation ends a sentence
when it is followed by a space, a newline, or the end of the text. -/
def sentBoundary : List Char → Bool
  | [] => true
  | c :: _ => c = ' ' || c = '\n'

/-- Loop of `splitSentences` (cmd.go): accumulate runes, flush the trimmed
buffer after end-of-sentence punctuation followed by space/newline/end. -/
def splitSentencesAux : List Char → List Char → List (List Char)
  | [], cur => if cur = [] then [] else [trimSpace cur]
  | c :: rest, cur =>
    if isSentEnd c && sentBoundary rest then
      trimSpace (cur ++ [c]) :: splitSentencesAux rest []
    else
      splitSentencesAux rest (cur ++ [c])

/-- `splitSentences` from cmd.go. -/
def splitSentences (text : List Char) : List (List Char) :=
  splitSentencesAux text []

/-- Inner loop of `chunkText` over the sentences of an oversized paragraph:
flush the buffer when adding the sentence would exceed the target, join
sentences inside a buffer with a single space. -/
def sentLoop (ts : Nat) :
    List (List Char) → List (List Char) → List Char →
      List (List Char) × List Char
  | [], chunks, cur => (chunks, cur)
  | s :: rest, chunks, cur =>
    if cur ≠ [] ∧ ts < cur.length + s.length then
      sentLoop ts rest (chunks ++ [trimSpace cur]) s
    else if cur ≠ [] then
      sentLoop ts rest chunks (cur ++ ' ' :: s)
    else
      sentLoop ts rest chunks s

/-- Outer loop of `chunkText` over paragraphs: trim each paragraph, skip
empty ones, flush the buffer when the paragraph would overflow the target,
split paragraphs longer than twice the target into sentences, otherwise
append the paragraph separated by a blank line. -/
def paraLoop (ts : Nat) :
    List (List Char) → List (List Char) → List Char →
      List (List Char) × List Char
  | [], chunks, cur => (chunks, cur)
  | para0 :: rest, chunks, cur =>
    let para := trimSpace para0
    if para = [] then
      paraLoop ts rest chunks cur
    else if cur ≠ [] ∧ ts < cur.length + para.length then
      if ts * 2 < para.length then
        let st := sentLoop ts (splitSentences para) (chunks ++ [trimSpace cur]) []
        paraLoop ts rest st.1 st.2
      else
        paraLoop ts rest (chunks ++ [trimSpace cur]) para
    else
      if ts * 2 < para.length then
        let st := sentLoop ts (splitSentences para) chunks cur
        paraLoop ts rest st.1 st.2
      else
        paraLoop ts rest chunks
          (if cur = [] then para else cur ++ '\n' :: '\n' :: para)

/-- `chunkText` from cmd.go: split text into chunks of roughly `ts`
characters, preferring paragraph boundaries, falling back to sentences. -/
def chunkText (text : List Char) (ts : Nat) : List (List Char) :=
  let st := paraLoop ts (splitBlank text) [] []
  if st.2 = [] then st.1 else st.1 ++ [trimSpace st.2]

/-- Non-whitespace characters of a text, in order. -/
def ns (l : List Char) : List Char :=
  l.filter (fun c => !goIsSpace c)

/-- Non-whitespace characters of a sequence of chunks, concatenated. -/
def nsJoin (ps : List (List Char)) : List Char :=
  (ps.map ns).flatten

/-- Whether the text contains a blank-line boundary (an occurrence of two
consecutive newlines). -/
def hasBlankSep : List Char → Bool
  | [] => false
  | '\n' :: '\n' :: _ => true
  | _ :: rest => hasBlankSep rest

/-! Decimal rendering, as produced by the format verb d of `fmt.Sprintf`. -/

/-- The decimal digit character for `d < 10`. -/
def decDigitChar (d : Nat) : Char :=
  if d = 0 then '0' else if d = 1 then '1' else if d = 2 then '2'
  else if d = 3 then '3' else if d = 4 then '4' else if d = 5 then '5'
  else if d = 6 then '6' else if d = 7 then '7' else if d = 8 then '8'
  else '9'

/-- Fuel-indexed decimal rendering loop. -/
def decCharsCore : Nat → Nat → List Char
  | 0, _ => []
  | fuel + 1, n =>
    if n < 10 then [decDigitChar n]
    else decCharsCore fuel (n / 10) ++ [decDigitChar (n % 10)]

/-- Decimal rendering of a natural number. -/
def decChars (n : Nat) : List Char := decCharsCore (n + 1) n

/-- Numeric value of a decimal digit character (left inverse of
`decDigitChar` below 10). -/
def digitVal (c : Char) : Nat :=
  match c with
  | '0' => 0 | '1' => 1 | '2' => 2 | '3' => 3 | '4' => 4
  | '5' => 5 | '6' => 6 | '7' => 7 | '8' => 8 | _ => 9

/-- Value of a decimal digit string (left inverse of `decChars`). -/
def decVal (l : List Char) : Nat := l.foldl (fun a c => a * 10 + digitVal c) 0

/-- The chunk identifier of cmd.go: the document id, an underscore, and the
zero-based chunk position in decimal. -/
def chunkId (docId : List Char) (i : Nat) : List Char :=
  docId ++ '_' :: decChars i

/-! SHA-256 (FIPS 180-4) over byte lists, 32-bit words as `Nat` reduced
modulo `2 ^ 32`.  `hashContent` in cmd.go calls the Go standard library
crypto/sha256, which is external to this repository. -/

/-- Reduce to a 32-bit word. -/
def w32 (n : Nat) : Nat := n % 2 ^ 32

/-- Rotate a 32-bit word right by `k`. -/
def rotr32 (k n : Nat) : Nat := w32 (n >>> k ||| n <<< (32 - k))

/-- The SHA-256 choice function. -/
def shaCh (e f g : Nat) : Nat := (e &&& f) ^^^ ((e ^^^ 0xffffffff) &&& g)

/-- The SHA-256 majority function. -/
def shaMaj (a b c : Nat) : Nat := (a &&& b) ^^^ (a &&& c) ^^^ (b &&& c)

/-- The SHA-256 big sigma 0. -/
def bsig0 (x : Nat) : Nat := rotr32 2 x ^^^ rotr32 13 x ^^^ rotr32 22 x

/-- The SHA-256 big sigma 1. -/
def bsig1 (x : Nat) : Nat := rotr32 6 x ^^^ rotr32 11 x ^^^ rotr32 25 x

/-- The SHA-256 small sigma 0. -/
def ssig0 (x : Nat) : Nat := rotr32 7 x ^^^ rotr32 18 x ^^^ x >>> 3

/-- The SHA-256 small sigma 1. -/
def ssig1 (x : Nat) : Nat := rotr32 17 x ^^^ rotr32 19 x ^^^ x >>> 10

/-- The SHA-256 round constants (FIPS 180-4, written in decimal). -/
def shaK : List Nat :=
  [1116352408, 1899447441, 3049323471, 3921009573, 961987163,
   1508970993, 2453635748, 2870763221, 3624381080, 310598401,
   607225278, 1426881987, 1925078388, 2162078206, 2614888103,
   3248222580, 3835390401, 4022224774, 264347078, 604807628,
   770255983, 1249150122, 1555081692, 1996064986, 2554220882,
   2821834349, 2952996808, 3210313671, 3336571891, 3584528711,
   113926993, 338241895, 666307205, 773529912, 1294757372,
   1396182291, 1695183700, 1986661051, 2177026350, 2456956037,
   2730485921, 2820302411, 3259730800, 3345764771, 3516065817,
   3600352804, 4094571909, 275423344, 430227734, 506948616,
   659060556, 883997877, 958139571, 1322822218, 1537002063,
   1747873779, 1955562222, 2024104815, 2227730452, 2361852424,
   2428436474, 2756734187, 3204031479, 3329325298]

/-- The SHA-256 initial hash value (FIPS 180-4, written in decimal). -/
def shaH0 : List Nat :=
  [1779033703, 3144134277, 1013904242, 2773480762,
   1359893119, 2600822924, 528734635, 1541459225]

/-- The `k` big-endian bytes of `n`. -/
def beBytes (k n : Nat) : List Nat :=
  (List.range k).map (fun i => n >>> (8 * (k - 1 - i)) % 256)

/-- SHA-256 message padding: append `0x80`, zero bytes up to 56 mod 64, and
the 64-bit big-endian bit length. -/
def shaPad (msg : List Nat) : List Nat :=
  msg ++ 0x80 :: List.replicate ((64 + 55 - msg.length % 64) % 64) 0 ++
    beBytes 8 (8 * msg.length)

/-- Assemble bytes into 32-bit big-endian words. -/
def bytesToWords : List Nat → List Nat
  | b0 :: b1 :: b2 :: b3 :: rest =>
    (((b0 % 256) <<< 24) ||| ((b1 % 256) <<< 16) ||| ((b2 % 256) <<< 8) |||
        (b3 % 256)) ::
      bytesToWords rest
  | _ => []

/-- Split a word list into 16-word message blocks. -/
def words16 (l : List Nat) : List (List Nat) :=
  if h : l = [] then [] else l.take 16 :: words16 (l.drop 16)
termination_by l.length
decreasing_by
  simp only [List.length_drop]
  exact Nat.sub_lt (List.length_pos.mpr h) (by norm_num)

/-- Extend a 16-word block by `n` further schedule words. -/
def sched : Nat → List Nat → List Nat
  | 0, ws => ws
  | n + 1, ws =>
    sched n (ws ++ [w32 (ssig1 (ws.getD (ws.length - 2) 0) +
      ws.getD (ws.length - 7) 0 + ssig0 (ws.getD (ws.length - 15) 0) +
      ws.getD (ws.length - 16) 0)])

/-- One SHA-256 compression round on the 8-word working state. -/
def shaRound (st : List Nat) (kw : Nat × Nat) : List Nat :=
  match st with
  | [a, b, c, d, e, f, g, h] =>
    let t1 := w32 (h + bsig1 e + shaCh e f g + kw.1 + kw.2)
    let t2 := w32 (bsig0 a + shaMaj a b c)
    [w32 (t1 + t2), a, b, c, w32 (d + t1), e, f, g]
  | other => other

/-- Process one 16-word block: 64 rounds over the extended schedule, then
add the working state back into the hash value. -/
def processBlock (H : List Nat) (block : List Nat) : List Nat :=
  let ws := sched 48 block
  let st := (shaK.zip ws).foldl shaRound H
  H.zipWith (fun x y => w32 (x + y)) st

/-- The SHA-256 digest of a byte list, as eight 32-bit words. -/
def sha256Words (msg : List Nat) : List Nat :=
  (words16 (bytesToWords (shaPad msg))).foldl processBlock shaH0

/-- Lowercase hexadecimal digit characters, as in Go's
`hex.EncodeToString`. -/
def hexDigitChar (d : Nat) : Char :=
  match d with
  | 0 => '0' | 1 => '1' | 2 => '2' | 3 => '3' | 4 => '4' | 5 => '5'
  | 6 => '6' | 7 => '7' | 8 => '8' | 9 => '9' | 10 => 'a' | 11 => 'b'
  | 12 => 'c' | 13 => 'd' | 14 => 'e' | _ => 'f'

/-- The eight hex characters of one 32-bit word, most significant first. -/
def hexWord (w : Nat) : List Char :=
  (List.range 8).map (fun i => hexDigitChar (w >>> (4 * (7 - i)) % 16))

/-- `hashContent` from cmd.go: the lowercase SHA-256 hex digest of the raw
byte content.  Modelled from the spec for the library part: crypto/sha256
is the Go standard library, not a source file of this repository; the spec
fixes the function to be the SHA-256 hex digest. -/
def hashContent (content : List Nat) : List Char :=
  ((sha256Words content).map hexWord).flatten

/-- The numeric value of a big-endian 32-bit word list. -/
def wordsToNat : List Nat → Nat
  | [] => 0
  | h :: t => h % 2 ^ 32 * 2 ^ (32 * t.length) + wordsToNat t

/-! The data model: rows of the conversations and chunks tables.  Timestamps
play no role in any claim and are omitted. -/

/-- A row of the conversations table (store.go). -/
structure Conversation where
  ID : List Char
  Content : List Char
deriving DecidableEq

/-- A chunk row (cmd.go / the chunk store). -/
structure Chunk where
  ID : List Char
  ConvID : List Char
  Content : List Char
  Position : Nat
deriving DecidableEq

/-- The persistent store: conversation rows, document-level embeddings
(the nullable embedding column), chunk rows and chunk-level embeddings. -/
structure Store where
  convs : List Conversation
  convEmbeds : List (List Char × List ℝ)
  chunks : List Chunk
  chunkEmbeds : List (List Char × List ℝ)

/-- `Store.Save` (store.go): `INSERT OR REPLACE` keyed on the id primary
key — the conflicting row is removed and the new row stored. -/
def saveConv (st : Store) (c : Conversation) : Store :=
  { st with convs := st.convs.filter (fun x => decide (x.ID ≠ c.ID)) ++ [c] }

/-- Modelled from the spec: `saveChunk(chunk)` is an upsert by id.  The
chunk-table schema and `SaveChunk` are not among the source files; only
their callers in cmd.go are. -/
def upsertChunk (tbl : List Chunk) (c : Chunk) : List Chunk :=
  tbl.filter (fun x => decide (x.ID ≠ c.ID)) ++ [c]

/-- `SaveChunk` acting on the store. -/
def saveChunk (st : Store) (c : Chunk) : Store :=
  { st with chunks := upsertChunk st.chunks c }

/-- Modelled from the spec: `saveEmbedding(id, vector)` associates or
replaces the embedding for an id; `SaveChunkEmbedding` is not among the
source files. -/
def upsertEmbed (tbl : List (List Char × List ℝ)) (id : List Char)
    (v : List ℝ) : List (List Char × List ℝ) :=
  tbl.filter (fun p => decide (p.1 ≠ id)) ++ [(id, v)]

/-- `SaveChunkEmbedding` acting on the store. -/
def saveChunkEmbedding (st : Store) (id : List Char) (v : List ℝ) : Store :=
  { st with chunkEmbeds := upsertEmbed st.chunkEmbeds id v }

/-- `Store.Get` (store.go): the conversation row with the given id. -/
def getConv (st : Store) (id : List Char) : Option Conversation :=
  st.convs.find? (fun c => decide (c.ID = id))

/-- The chunk rows built by `uploadCmd` and `reindexCmd` for one document:
position `i` holds the i-th chunk of `chunkText(content, 800)` under id
`<docId>_<i>`. -/
def chunkRows (docId content : List Char) : List Chunk :=
  (chunkText content 800).enum.map (fun p => ⟨chunkId docId p.1, docId, p.2, p.1⟩)

/-- The body of the per-chunk loop shared by `uploadCmd` and `reindexCmd`:
save the chunk row, embed its content, save the chunk embedding. -/
def uploadStep (embed : List Char → List ℝ) (st : Store) (ch : Chunk) : Store :=
  saveChunkEmbedding (saveChunk st ch) ch.ID (embed ch.Content)

/-- `uploadCmd` (cmd.go): reject empty input, derive the content-hash id,
upsert the conversation row, then chunk with target size 800 and save each
chunk and its embedding.  The embedding provider is the function argument. -/
def upload (st : Store) (embed : List Char → List ℝ) (text : List Char) :
    Option (List Char × Store) :=
  if text = [] then none
  else
    let id := hashContent (text.map Char.toNat)
    let st1 := saveConv st ⟨id, text⟩
    some (id, (chunkRows id text).foldl (uploadStep embed) st1)

/-- `reindexCmd` (cmd.go): for every stored conversation, re-chunk its
content with target size 800 and save every chunk and its embedding.  No
rows are deleted. -/
def reindexStore (st : Store) (embed : List Char → List ℝ) : Store :=
  st.convs.foldl (fun s cv => (chunkRows cv.ID cv.Content).foldl (uploadStep embed) s) st

/-- The chunk-table projection of a reindex run over the given documents. -/
def reindexChunks (docs : List (List Char × List Char)) (tbl : List Chunk) :
    List Chunk :=
  docs.foldl (fun t d => (chunkRows d.1 d.2).foldl upsertChunk t) tbl

/-- The chunk set of one document: the chunk rows referencing it. -/
def chunkSetOf (tbl : List Chunk) (docId : List Char) : List Chunk :=
  tbl.filter (fun c => decide (c.ConvID = docId))

/-! Cosine distance (store.go), with float64 arithmetic modelled over `ℝ`. -/

/-- The dot product accumulated by the loop of `cosineDistance`. -/
def dotList (a b : List ℝ) : ℝ :=
  ((a.zip b).map (fun p => p.1 * p.2)).sum

/-- The squared norm accumulated by the loop of `cosineDistance`. -/
def normSq (a : List ℝ) : ℝ :=
  (a.map (fun x => x * x)).sum

/-- `cosineDistance` from store.go: 1 on mismatched lengths, 1 when either
squared norm is zero, otherwise one minus the cosine similarity. -/
noncomputable def cosineDistance (a b : List ℝ) : ℝ :=
  if a.length ≠ b.length then 1
  else if normSq a = 0 ∨ normSq b = 0 then 1
  else 1 - dotList a b / (Real.sqrt (normSq a) * Real.sqrt (normSq b))

/-- `SearchResult` from store.go. -/
structure SearchResult where
  ID : List Char
  Distance : ℝ

/-- Ascending-distance order on search results. -/
def distLE (r s : SearchResult) : Prop := r.Distance ≤ s.Distance

noncomputable instance : DecidableRel distLE :=
  fun a b => Real.decidableLE a.Distance b.Distance

instance : IsTotal SearchResult distLE :=
  ⟨fun a b => le_total a.Distance b.Distance⟩

instance : IsTrans SearchResult distLE :=
  ⟨fun _ _ _ h1 h2 => le_trans h1 h2⟩

/-- A chunk-granularity search result carrying the chunk content, as
consumed by `primeCmd`. -/
structure ChunkSearchResult where
  ID : List Char
  Content : List Char
  Distance : ℝ

/-- Ascending-distance order on chunk search results. -/
def cdistLE (r s : ChunkSearchResult) : Prop := r.Distance ≤ s.Distance

noncomputable instance : DecidableRel cdistLE :=
  fun a b => Real.decidableLE a.Distance b.Distance

instance : IsTotal ChunkSearchResult cdistLE :=
  ⟨fun a b => le_total a.Distance b.Distance⟩

instance : IsTrans ChunkSearchResult cdistLE :=
  ⟨fun _ _ _ h1 h2 => le_trans h1 h2⟩

/-- Modelled from the spec: `search(queryVector, limit, distanceThreshold,
granularity)` over the stored embedding rows of one granularity — compute
the cosine distance of every row against the query, exclude any result
whose distance exceeds the threshold, order ascending by distance, and
truncate to the limit.  The current threshold-aware `Store.Search` is not
among the source files (the revision in src/store.go takes no threshold,
while its caller in cmd.go passes one); the brute-force strategy of spec
section 4.2 and the scan/sort/truncate skeleton of src/store.go are
followed. -/
noncomputable def searchEmbeddings (rows : List (List Char × List ℝ))
    (query : List ℝ) (lim : Nat) (thr : ℝ) : List SearchResult :=
  ((((rows.map (fun p => SearchResult.mk p.1 (cosineDistance query p.2))).filter
      (fun r => decide (r.Distance ≤ thr))).insertionSort distLE).take lim)

/-- Modelled from the spec: chunk-granularity search (`Store.SearchChunks`,
not among the source files): brute force over the stored chunk embeddings,
joining each embedding row to its chunk row for the content and skipping
embeddings whose chunk row is missing, then threshold, sort, truncate as in
`searchEmbeddings`. -/
noncomputable def searchChunks (st : Store) (query : List ℝ) (lim : Nat)
    (thr : ℝ) : List ChunkSearchResult :=
  ((((st.chunkEmbeds.filterMap (fun p =>
      (st.chunks.find? (fun ch => decide (ch.ID = p.1))).map
        (fun ch => ChunkSearchResult.mk ch.ID ch.Content
          (cosineDistance query p.2)))).filter
      (fun r => decide (r.Distance ≤ thr))).insertionSort cdistLE).take lim)

/-- Modelled from the spec: `hasChunks()` — whether any chunk-level
embeddings exist at all, used to pick the search granularity
(`Store.HasChunks` is not among the source files). -/
def hasChunks (st : Store) : Bool := !st.chunkEmbeds.isEmpty

/-- Which granularity a retrieval served. -/
inductive Granularity
  | chunk
  | document
deriving DecidableEq

/-- The outcome of `primeCmd`'s retrieval stage: either the no-relevant-
context report or a list of passages at one granularity. -/
inductive PrimeOutcome
  | noContext
  | passages (g : Granularity) (texts : List (List Char))

/-- The retrieval stage of `primeCmd` (cmd.go): distance threshold 0.45;
chunk-granularity search with candidate limit 10 when any chunk embeddings
exist, each surviving chunk's content one passage; otherwise document-
granularity search with candidate limit 5, fetching each whole document and
skipping failed fetches; empty results mean no relevant context. -/
noncomputable def primeRetrieve (st : Store) (queryEmb : List ℝ) : PrimeOutcome :=
  if hasChunks st then
    let results := searchChunks st queryEmb 10 (0.45 : ℝ)
    if results.isEmpty then .noContext
    else .passages .chunk (results.map (fun r => r.Content))
  else
    let results := searchEmbeddings st.convEmbeds queryEmb 5 (0.45 : ℝ)
    if results.isEmpty then .noContext
    else
      let contexts := results.filterMap
        (fun r => (getConv st r.ID).map (fun c => c.Content))
      if contexts.isEmpty then .noContext
      else .passages .document contexts

/-! The context assembler (`joinContexts`, cmd.go). -/

/-- The loop of `joinContexts`: truncate each passage beyond 2000
characters to 2000 plus an ellipsis, and append
`[Conversation <i+1>]`, a newline, the passage and a blank line to the
accumulated result. -/
def jcAux : Nat → List (List Char) → List Char → List Char
  | _, [], acc => acc
  | i, c :: rest, acc =>
    let c2 := if 2000 < c.length then c.take 2000 ++ ['.', '.', '.'] else c
    jcAux (i + 1) rest
      (acc ++ ("[Conversation ".toList ++ decChars (i + 1) ++ ']' :: '\n' ::
        c2 ++ ['\n', '\n']))

/-- `joinContexts` from cmd.go. -/
def joinContexts (contexts : List (List Char)) : List Char :=
  jcAux 0 contexts []

/-- The context-assembler contract as the spec words it (section 4.4): each
passage longer than the per-passage limit is truncated to the limit with a
trailing ellipsis marker, and passages are concatenated in order, each
under a numbered header with blank-line separation. -/
def assembleBlock (lim n : Nat) (p : List Char) : List Char :=
  "[Conversation ".toList ++ decChars n ++ ']' :: '\n' ::
    (if lim < p.length then p.take lim ++ ['.', '.', '.'] else p) ++
    ['\n', '\n']

/-- The assembled context block per the spec: one numbered block per
passage, in retrieval order. -/
def assembleSpec (passages : List (List Char)) (lim : Nat) : List Char :=
  ((List.enumFrom 1 passages).map (fun q => assembleBlock lim q.1 q.2)).flatten

/-! Lemmas about whitespace filtering and trimming. -/

theorem ns_append (a b : List Char) : ns (a ++ b) = ns a ++ ns b := by
  simp [ns]

theorem ns_all_space {l : List Char} (h : ∀ c ∈ l, goIsSpace c) : ns l = [] := by
  simp only [ns, List.filter_eq_nil_iff]
  intro c hc
  simp [h c hc]

theorem ns_dropWhile (l : List Char) : ns (l.dropWhile goIsSpace) = ns l := by
  conv_rhs => rw [← List.takeWhile_append_dropWhile (p := goIsSpace) (l := l)]
  rw [ns_append, ns_all_space (fun c hc => List.mem_takeWhile_imp hc), List.nil_append]

theorem ns_reverse (l : List Char) : ns l.reverse = (ns l).reverse := by
  simp [ns, List.filter_reverse]

theorem ns_trimRight (l : List Char) : ns (trimRight l) = ns l := by
  rw [trimRight, ns_reverse, ns_dropWhile, ns_reverse, List.reverse_reverse]

theorem ns_trimSpace (l : List Char) : ns (trimSpace l) = ns l := by
  rw [trimSpace, ns_trimRight, ns_dropWhile]

theorem dropWhile_goIsSpace_all {l : List Char} (h : ∀ c ∈ l, goIsSpace c) :
    l.dropWhile goIsSpace = [] :=
  List.dropWhile_eq_nil_iff.mpr h

theorem trimSpace_all_space {l : List Char} (h : ∀ c ∈ l, goIsSpace c) :
    trimSpace l = [] := by
  rw [trimSpace, dropWhile_goIsSpace_all h, trimRight]
  rfl

theorem dropWhile_dropWhile (p : Char → Bool) (l : List Char) :
    (l.dropWhile p).dropWhile p = l.dropWhile p := by
  induction l with
  | nil => rfl
  | cons c rest ih =>
    by_cases h : p c
    · simp [List.dropWhile_cons, h, ih]
    · simp [List.dropWhile_cons, h]

theorem trimRight_trimRight (l : List Char) :
    trimRight (trimRight l) = trimRight l := by
  rw [trimRight, trimRight, List.reverse_reverse, dropWhile_dropWhile]

theorem dropWhile_head_not {p : Char → Bool} {l : List Char} {c : Char}
    {rest : List Char} (h : l.dropWhile p = c :: rest) : p c = false := by
  induction l with
  | nil => simp at h
  | cons a l ih =>
    by_cases ha : p a
    · rw [List.dropWhile_cons_of_pos ha] at h
      exact ih h
    · rw [List.dropWhile_cons_of_neg ha] at h
      cases h
      simpa using ha

theorem trimRight_cons_of_not_space {c : Char} (x : List Char)
    (h : goIsSpace c = false) : ∃ ys, trimRight (c :: x) = c :: ys := by
  rw [trimRight, List.reverse_cons, List.dropWhile_append]
  by_cases he : (x.reverse.dropWhile goIsSpace).isEmpty
  · simp only [he, if_pos]
    simp [List.dropWhile, h]
  · simp only [he, if_neg, Bool.false_eq_true, not_false_iff]
    rw [List.reverse_append]
    exact ⟨_, rfl⟩

theorem dropWhile_eq_self_of_head {c : Char} {ys : List Char}
    (h : goIsSpace c = false) : (c :: ys).dropWhile goIsSpace = c :: ys := by
  simp [List.dropWhile, h]

theorem trimSpace_trimSpace (l : List Char) :
    trimSpace (trimSpace l) = trimSpace l := by
  rw [trimSpace, trimSpace]
  rcases hd : l.dropWhile goIsSpace with _ | ⟨c, x⟩
  · rfl
  · have hc : goIsSpace c = false := dropWhile_head_not hd
    obtain ⟨ys, hys⟩ := trimRight_cons_of_not_space x hc
    rw [hys, dropWhile_eq_self_of_head hc, ← hys, trimRight_trimRight]

/-! Lemmas about `splitBlank`. -/

theorem splitBlank_cons_ne (c : Char) (rest : List Char)
    (h : ∀ rest1 : List Char, c = '\n' → rest = '\n' :: rest1 → False) :
    splitBlank (c :: rest) =
      match splitBlank rest with
      | [] => [[c]]
      | p :: ps => (c :: p) :: ps := by
  rw [splitBlank.eq_def]
  rcases rest with _ | ⟨b, rest2⟩
  · simp
  · by_cases hc : c = '\n'
    · by_cases hb : b = '\n'
      · exact absurd (h rest2 hc (by rw [hb])) (by simp)
      · subst hc; simp [hb]
    · rcases eq_or_ne b '\n' with hb | hb
      · subst hb; simp [hc]
      · simp [hc, hb]

theorem splitBlank_ne_nil (l : List Char) : splitBlank l ≠ [] := by
  induction l using splitBlank.induct with
  | case1 => simp [splitBlank]
  | case2 rest ih => simp [splitBlank]
  | case3 c rest h hnil ih => rw [splitBlank_cons_ne c rest h, hnil]; simp
  | case4 c rest h p ps hcons ih => rw [splitBlank_cons_ne c rest h, hcons]; simp

theorem splitBlank_ns (l : List Char) : nsJoin (splitBlank l) = ns l := by
  induction l using splitBlank.induct with
  | case1 => simp [splitBlank, nsJoin, ns]
  | case2 rest ih =>
    have hn : goIsSpace '\n' = true := by decide
    simp only [splitBlank, nsJoin, List.map_cons, List.flatten_cons] at ih ⊢
    rw [ih]
    simp [ns, hn]
  | case3 c rest h hnil ih => exact absurd hnil (splitBlank_ne_nil rest)
  | case4 c rest h p ps hcons ih =>
    rw [splitBlank_cons_ne c rest h, hcons]
    rw [hcons] at ih
    simp only [nsJoin, List.map_cons, List.flatten_cons] at ih ⊢
    by_cases hc : goIsSpace c
    · simp only [ns, List.filter_cons, hc] at ih ⊢
      exact ih
    · simp only [ns, List.filter_cons, hc] at ih ⊢
      simp only [Bool.not_false, if_pos, List.cons_append]
      rw [ih]

theorem hasBlankSep_cons_ne (c : Char) (rest : List Char)
    (h : ∀ rest1 : List Char, c = '\n' → rest = '\n' :: rest1 → False) :
    hasBlankSep (c :: rest) = hasBlankSep rest := by
  rw [hasBlankSep.eq_def]
  rcases rest with _ | ⟨b, rest2⟩
  · simp [hasBlankSep]
  · by_cases hc : c = '\n'
    · by_cases hb : b = '\n'
      · exact absurd (h rest2 hc (by rw [hb])) (by simp)
      · subst hc; simp [hb]
    · rcases eq_or_ne b '\n' with hb | hb
      · subst hb; simp [hc]
      · simp [hc, hb]

theorem splitBlank_no_sep {l : List Char} (h : hasBlankSep l = false) :
    splitBlank l = [l] := by
  induction l using splitBlank.induct with
  | case1 => rfl
  | case2 rest ih => simp [hasBlankSep] at h
  | case3 c rest h1 hnil ih => exact absurd hnil (splitBlank_ne_nil rest)
  | case4 c rest h1 p ps hcons ih =>
    rw [hasBlankSep_cons_ne c rest h1] at h
    rw [splitBlank_cons_ne c rest h1, ih h]

theorem mem_splitBlank_mem {l p : List Char} {c : Char}
    (hp : p ∈ splitBlank l) (hc : c ∈ p) : c ∈ l := by
  induction l using splitBlank.induct generalizing p with
  | case1 =>
    simp only [splitBlank, List.mem_singleton] at hp
    subst hp
    simp at hc
  | case2 rest ih =>
    simp only [splitBlank, List.mem_cons] at hp
    rcases hp with hp | hp
    · subst hp; simp at hc
    · simp only [List.mem_cons]
      exact Or.inr (Or.inr (ih hp hc))
  | case3 c0 rest h hnil ih => exact absurd hnil (splitBlank_ne_nil rest)
  | case4 c0 rest h p0 ps hcons ih =>
    rw [splitBlank_cons_ne c0 rest h, hcons] at hp
    simp only [List.mem_cons] at hp
    rcases hp with hp | hp
    · subst hp
      rcases List.mem_cons.mp hc with hc | hc
      · simp [hc]
      · have := ih (p := p0) (by rw [hcons]; simp) hc
        simp [this]
    · have := ih (p := p) (by rw [hcons]; simp [hp]) hc
      simp [this]

/-! Conservation of non-whitespace characters through the chunker. -/

@[simp]
theorem ns_nil : ns [] = [] := rfl

@[simp]
theorem nsJoin_nil : nsJoin [] = [] := rfl

theorem nsJoin_cons (p : List Char) (ps : List (List Char)) :
    nsJoin (p :: ps) = ns p ++ nsJoin ps := by
  simp [nsJoin]

theorem nsJoin_append (ps qs : List (List Char)) :
    nsJoin (ps ++ qs) = nsJoin ps ++ nsJoin qs := by
  simp [nsJoin]

theorem ns_cons_space {c : Char} (l : List Char) (h : goIsSpace c = true) :
    ns (c :: l) = ns l := by
  simp [ns, List.filter_cons, h]

theorem splitSentencesAux_ns (text : List Char) :
    ∀ cur, nsJoin (splitSentencesAux text cur) = ns cur ++ ns text := by
  induction text with
  | nil =>
    intro cur
    by_cases h : cur = []
    · simp [splitSentencesAux, h]
    · simp [splitSentencesAux, h, nsJoin_cons, ns_trimSpace]
  | cons c rest ih =>
    intro cur
    simp only [splitSentencesAux]
    have hsplit : ns (c :: rest) = ns [c] ++ ns rest := ns_append [c] rest
    by_cases h : (isSentEnd c && sentBoundary rest) = true
    · simp only [h, if_pos]
      rw [nsJoin_cons, ih [], ns_trimSpace, ns_append, hsplit]
      simp
    · simp only [h, if_neg, Bool.false_eq_true, not_false_iff]
      rw [ih (cur ++ [c]), ns_append, hsplit, List.append_assoc]

theorem splitSentences_ns (text : List Char) :
    nsJoin (splitSentences text) = ns text := by
  rw [splitSentences, splitSentencesAux_ns]
  simp

theorem sentLoop_ns (ts : Nat) (ss : List (List Char)) :
    ∀ chunks cur,
      nsJoin (sentLoop ts ss chunks cur).1 ++ ns (sentLoop ts ss chunks cur).2 =
        nsJoin chunks ++ ns cur ++ nsJoin ss := by
  induction ss with
  | nil => intro chunks cur; simp [sentLoop, nsJoin_nil]
  | cons s rest ih =>
    intro chunks cur
    simp only [sentLoop]
    split_ifs with h1 h2
    · rw [ih, nsJoin_append, nsJoin_cons, nsJoin_cons, nsJoin_nil, ns_trimSpace]
      simp [List.append_assoc]
    · rw [ih, ns_append, ns_cons_space s (by decide), nsJoin_cons]
      simp [List.append_assoc]
    · have hcur : cur = [] := by
        by_contra hne
        exact h2 hne
      subst hcur
      rw [ih, nsJoin_cons]
      simp [List.append_assoc]

theorem paraLoop_ns (ts : Nat) (paras : List (List Char)) :
    ∀ chunks cur,
      nsJoin (paraLoop ts paras chunks cur).1 ++ ns (paraLoop ts paras chunks cur).2 =
        nsJoin chunks ++ ns cur ++ nsJoin paras := by
  induction paras with
  | nil => intro chunks cur; simp [paraLoop, nsJoin_nil]
  | cons para0 rest ih =>
    intro chunks cur
    have hp0 : ns para0 = ns (trimSpace para0) := (ns_trimSpace para0).symm
    rw [nsJoin_cons, hp0]
    simp only [paraLoop]
    split_ifs with hempty hflush hbig hbig2 hcur
    · rw [ih, hempty]
      simp
    · rw [ih, sentLoop_ns, splitSentences_ns, nsJoin_append, nsJoin_cons,
        nsJoin_nil, ns_trimSpace]
      simp [List.append_assoc]
    · rw [ih, nsJoin_append, nsJoin_cons, nsJoin_nil, ns_trimSpace]
      simp [List.append_assoc]
    · rw [ih, sentLoop_ns, splitSentences_ns]
      simp [List.append_assoc]
    · rw [ih, hcur]
      simp [List.append_assoc]
    · rw [ih, ns_append, ns_cons_space _ (by decide), ns_cons_space _ (by decide)]
      simp [List.append_assoc]

theorem chunkText_ns (t : List Char) (ts : Nat) :
    nsJoin (chunkText t ts) = ns t := by
  have h := paraLoop_ns ts (splitBlank t) [] []
  rw [splitBlank_ns] at h
  simp only [nsJoin_nil, ns, List.filter_nil, List.nil_append] at h
  rw [chunkText]
  by_cases h2 : (paraLoop ts (splitBlank t) [] []).2 = []
  · simp only [h2, if_pos]
    rw [h2] at h
    simpa [ns] using h
  · simp only [h2, if_neg, not_false_iff]
    rw [nsJoin_append, nsJoin_cons, nsJoin_nil, ns_trimSpace]
    simpa [ns] using h

theorem chunkText_nonempty {t : List Char} (ts : Nat) (h : ns t ≠ []) :
    chunkText t ts ≠ [] := by
  intro hc
  apply h
  rw [← chunkText_ns t ts, hc, nsJoin_nil]

theorem paraLoop_all_empty (ts : Nat) (paras : List (List Char))
    (h : ∀ p ∈ paras, trimSpace p = []) :
    ∀ chunks cur, paraLoop ts paras chunks cur = (chunks, cur) := by
  induction paras with
  | nil => intro chunks cur; rfl
  | cons p rest ih =>
    intro chunks cur
    simp only [paraLoop, h p (by simp), if_pos]
    exact ih (fun q hq => h q (by simp [hq])) chunks cur

theorem chunkText_all_space {t : List Char} (ts : Nat)
    (h : ∀ c ∈ t, goIsSpace c) : chunkText t ts = [] := by
  rw [chunkText, paraLoop_all_empty ts (splitBlank t)
    (fun p hp => trimSpace_all_space (fun c hc => h c (mem_splitBlank_mem hp hc)))]
  rfl

theorem chunkText_single {t : List Char} {ts : Nat}
    (hsep : hasBlankSep t = false) (hne : trimSpace t ≠ [])
    (hlen : (trimSpace t).length ≤ ts * 2) :
    chunkText t ts = [trimSpace t] := by
  rw [chunkText, splitBlank_no_sep hsep]
  have hstep : paraLoop ts [t] [] [] = ([], trimSpace t) := by
    simp only [paraLoop]
    split_ifs with h1 h2 h3 h4
    all_goals first
      | rfl
      | exact absurd h1 hne
      | exact absurd h2.1 (by simp)
      | exact absurd h3 (not_lt.mpr hlen)
      | exact absurd h4 (not_lt.mpr hlen)
  rw [hstep]
  simp only [if_neg hne, List.nil_append]
  rw [trimSpace_trimSpace]

/-- C2 counterexample: the text consisting of two newlines is non-empty, yet
`chunkText` returns the empty sequence for it, so the claim's quantification
over every non-empty text fails. -/
theorem chunkText_nonempty_text_counterexample :
    (['\n', '\n'] : List Char) ≠ [] ∧ chunkText ['\n', '\n'] 800 = [] := by
  constructor
  · decide
  · decide

/-- C2 (amended): for every text containing at least one non-whitespace
character and every target size, `chunkText` produces a non-empty sequence
of chunks, and for every text whatsoever the concatenated chunks contain
exactly the non-whitespace characters of the input, in the original order
(all separators the chunker inserts are whitespace, so comparing the
whitespace-filtered character sequences captures the claim). -/
theorem chunkText_conservation (t : List Char) (ts : Nat) :
    nsJoin (chunkText t ts) = ns t ∧ (ns t ≠ [] → chunkText t ts ≠ []) :=
  ⟨chunkText_ns t ts, fun h => chunkText_nonempty ts h⟩

/-- C2 witness: a concrete two-paragraph text with non-whitespace content
chunks to a non-empty sequence preserving its non-whitespace characters. -/
theorem chunkText_conservation_witness :
    ns ['h', 'i', '\n', '\n', 'y', 'o'] ≠ [] ∧
      nsJoin (chunkText ['h', 'i', '\n', '\n', 'y', 'o'] 800) =
        ns ['h', 'i', '\n', '\n', 'y', 'o'] ∧
      chunkText ['h', 'i', '\n', '\n', 'y', 'o'] 800 ≠ [] :=
  ⟨by decide, (chunkText_conservation ['h', 'i', '\n', '\n', 'y', 'o'] 800).1,
    (chunkText_conservation ['h', 'i', '\n', '\n', 'y', 'o'] 800).2 (by decide)⟩

/-- C8 counterexample: a single space has no blank-line boundary and its
trimmed paragraph is within twice any target size, yet `chunkText` returns
the empty sequence rather than exactly one element. -/
theorem chunkText_single_counterexample :
    hasBlankSep [' '] = false ∧ (trimSpace [' ']).length ≤ 5 * 2 ∧
      chunkText [' '] 5 = [] := by
  refine ⟨by decide, by decide, by decide⟩

/-- C8 (amended): for every text with no blank-line boundary, whose trimmed
content is non-empty, and whose single (trimmed) paragraph is at most twice
the target size, `chunkText` returns exactly one chunk, the trimmed text. -/
theorem chunkText_single_chunk {t : List Char} {ts : Nat}
    (hsep : hasBlankSep t = false) (hne : trimSpace t ≠ [])
    (hlen : (trimSpace t).length ≤ ts * 2) :
    chunkText t ts = [trimSpace t] :=
  chunkText_single hsep hne hlen

/-- C8 witness: a concrete one-paragraph text yields exactly its trimmed
self as the only chunk. -/
theorem chunkText_single_chunk_witness :
    hasBlankSep [' ', 'h', 'i'] = false ∧ trimSpace [' ', 'h', 'i'] ≠ [] ∧
      (trimSpace [' ', 'h', 'i']).length ≤ 4 * 2 ∧
      chunkText [' ', 'h', 'i'] 4 = [trimSpace [' ', 'h', 'i']] :=
  ⟨by decide, by decide, by decide,
    chunkText_single_chunk (by decide) (by decide) (by decide)⟩

/-! Properties of the search pipeline. -/

theorem mem_searchEmbeddings {rows : List (List Char × List ℝ)} {query : List ℝ}
    {lim : Nat} {thr : ℝ} {r : SearchResult}
    (h : r ∈ searchEmbeddings rows query lim thr) :
    ∃ p ∈ rows, r.ID = p.1 ∧ r.Distance = cosineDistance query p.2 ∧
      r.Distance ≤ thr := by
  rw [searchEmbeddings] at h
  have h1 := (List.take_sublist lim _).mem h
  rw [List.mem_insertionSort] at h1
  rw [List.mem_filter] at h1
  obtain ⟨h2, h3⟩ := h1
  rw [List.mem_map] at h2
  obtain ⟨p, hp, hpr⟩ := h2
  exact ⟨p, hp, by rw [← hpr], by rw [← hpr], of_decide_eq_true h3⟩

theorem mem_searchChunks {st : Store} {query : List ℝ} {lim : Nat} {thr : ℝ}
    {r : ChunkSearchResult} (h : r ∈ searchChunks st query lim thr) :
    ∃ ch ∈ st.chunks, ∃ v, (ch.ID, v) ∈ st.chunkEmbeds ∧ r.ID = ch.ID ∧
      r.Content = ch.Content ∧ r.Distance = cosineDistance query v ∧
      r.Distance ≤ thr := by
  rw [searchChunks] at h
  have h1 := (List.take_sublist lim _).mem h
  rw [List.mem_insertionSort] at h1
  rw [List.mem_filter] at h1
  obtain ⟨h2, h3⟩ := h1
  rw [List.mem_filterMap] at h2
  obtain ⟨p, hp, hpr⟩ := h2
  obtain ⟨ch, hfind, hchr⟩ := Option.map_eq_some'.mp hpr
  have hch1 : ch ∈ st.chunks := List.mem_of_find?_eq_some hfind
  have hfs := @List.find?_some Chunk (fun c => decide (c.ID = p.1)) ch
    st.chunks hfind
  have hch2 : ch.ID = p.1 := of_decide_eq_true hfs
  subst hchr
  refine ⟨ch, hch1, p.2, ?_, rfl, rfl, rfl, of_decide_eq_true h3⟩
  rw [hch2]
  exact hp

theorem searchEmbeddings_sorted (rows : List (List Char × List ℝ))
    (query : List ℝ) (lim : Nat) (thr : ℝ) :
    (searchEmbeddings rows query lim thr).Pairwise distLE := by
  rw [searchEmbeddings]
  exact (List.sorted_insertionSort distLE _).sublist (List.take_sublist lim _)

theorem searchEmbeddings_length (rows : List (List Char × List ℝ))
    (query : List ℝ) (lim : Nat) (thr : ℝ) :
    (searchEmbeddings rows query lim thr).length ≤ lim := by
  rw [searchEmbeddings]
  exact List.length_take_le lim _

/-- C1: for every stored embedding-row set, query vector, limit and distance
threshold, the search result sequence is non-decreasing in distance, every
returned distance is at most the threshold, and its length is at most the
limit. -/
theorem search_sorted_filtered_bounded (rows : List (List Char × List ℝ))
    (query : List ℝ) (lim : Nat) (thr : ℝ) :
    (searchEmbeddings rows query lim thr).Pairwise
        (fun r s => r.Distance ≤ s.Distance) ∧
      (∀ r ∈ searchEmbeddings rows query lim thr, r.Distance ≤ thr) ∧
      (searchEmbeddings rows query lim thr).length ≤ lim :=
  ⟨searchEmbeddings_sorted rows query lim thr,
    fun _ hr => (mem_searchEmbeddings hr).choose_spec.2.2.2,
    searchEmbeddings_length rows query lim thr⟩

/-- C10: a non-empty all-whitespace text chunks to the empty sequence for
every target size; `uploadCmd` still accepts it (only zero-length input is
rejected), stores the conversation row and creates no chunk and no chunk
embedding, so no chunk-granularity search can ever return content of this
document (assuming no pre-existing chunk claims its id). -/
theorem upload_whitespace_only (st : Store) (embed : List Char → List ℝ)
    (text : List Char) (hne : text ≠ []) (hsp : ∀ c ∈ text, goIsSpace c)
    (hpre : ∀ ch ∈ st.chunks, ch.ConvID ≠ hashContent (text.map Char.toNat)) :
    (∀ N, chunkText text N = []) ∧
      upload st embed text =
        some (hashContent (text.map Char.toNat),
          saveConv st ⟨hashContent (text.map Char.toNat), text⟩) ∧
      (saveConv st ⟨hashContent (text.map Char.toNat), text⟩).chunks =
        st.chunks ∧
      (saveConv st ⟨hashContent (text.map Char.toNat), text⟩).chunkEmbeds =
        st.chunkEmbeds ∧
      (⟨hashContent (text.map Char.toNat), text⟩ : Conversation) ∈
        (saveConv st ⟨hashContent (text.map Char.toNat), text⟩).convs ∧
      ∀ q lim thr r,
        r ∈ searchChunks (saveConv st ⟨hashContent (text.map Char.toNat), text⟩)
            q lim thr →
          ∃ ch ∈ st.chunks, r.Content = ch.Content ∧
            ch.ConvID ≠ hashContent (text.map Char.toNat) := by
  have hchunk : ∀ N, chunkText text N = [] :=
    fun N => chunkText_all_space N hsp
  have hrows : chunkRows (hashContent (text.map Char.toNat)) text = [] := by
    rw [chunkRows, hchunk 800]
    rfl
  refine ⟨hchunk, ?_, rfl, rfl, by simp [saveConv], ?_⟩
  · rw [upload, if_neg hne]
    simp only [hrows, List.foldl_nil]
  · intro q lim thr r hr
    obtain ⟨ch, hch, v, _, _, hcontent, _, _⟩ := mem_searchChunks hr
    exact ⟨ch, hch, hcontent, hpre ch hch⟩

/-- C10 witness: uploading the non-empty all-whitespace file of a newline
and a space into the empty store succeeds, keeps the chunk tables empty and
stores the conversation row. -/
theorem upload_whitespace_only_witness :
    (['\n', ' '] : List Char) ≠ [] ∧
      chunkText ['\n', ' '] 800 = [] ∧
      upload ⟨[], [], [], []⟩ (fun _ => []) ['\n', ' '] =
        some (hashContent (List.map Char.toNat ['\n', ' ']),
          saveConv ⟨[], [], [], []⟩
            ⟨hashContent (List.map Char.toNat ['\n', ' ']), ['\n', ' ']⟩) :=
  ⟨by decide,
    (upload_whitespace_only ⟨[], [], [], []⟩ (fun _ => []) ['\n', ' ']
      (by decide) (by decide) (by simp)).1 800,
    (upload_whitespace_only ⟨[], [], [], []⟩ (fun _ => []) ['\n', ' ']
      (by decide) (by decide) (by simp)).2.1⟩

/-! Properties of `cosineDistance`. -/

theorem dotList_nil (b : List ℝ) : dotList [] b = 0 := by
  simp [dotList]

theorem dotList_nil_right (a : List ℝ) : dotList a [] = 0 := by
  cases a <;> simp [dotList]

theorem dotList_cons (x y : ℝ) (xs ys : List ℝ) :
    dotList (x :: xs) (y :: ys) = x * y + dotList xs ys := by
  simp [dotList]

theorem dotList_comm (a : List ℝ) : ∀ b, dotList a b = dotList b a := by
  induction a with
  | nil => intro b; rw [dotList_nil, dotList_nil_right]
  | cons x xs ih =>
    intro b
    cases b with
    | nil => rw [dotList_nil, dotList_nil_right]
    | cons y ys => rw [dotList_cons, dotList_cons, ih, mul_comm]

theorem normSq_nil : normSq [] = 0 := by simp [normSq]

theorem normSq_cons (x : ℝ) (xs : List ℝ) :
    normSq (x :: xs) = x * x + normSq xs := by
  simp [normSq]

theorem normSq_nonneg (a : List ℝ) : 0 ≤ normSq a :=
  List.sum_nonneg (by
    intro x hx
    obtain ⟨y, _, hy⟩ := List.mem_map.mp hx
    rw [← hy]
    exact mul_self_nonneg y)

theorem dotList_self (a : List ℝ) : dotList a a = normSq a := by
  induction a with
  | nil => rw [dotList_nil, normSq_nil]
  | cons x xs ih => rw [dotList_cons, normSq_cons, ih]

theorem normSq_eq_zero_iff (a : List ℝ) :
    normSq a = 0 ↔ ∀ x ∈ a, x = 0 := by
  induction a with
  | nil => simp [normSq_nil]
  | cons x xs ih =>
    rw [normSq_cons]
    rw [add_eq_zero_iff_of_nonneg (mul_self_nonneg x) (normSq_nonneg xs)]
    rw [mul_self_eq_zero, ih]
    simp

theorem cosineDistance_comm (a b : List ℝ) :
    cosineDistance a b = cosineDistance b a := by
  by_cases hl : a.length = b.length
  · by_cases hz : normSq a = 0 ∨ normSq b = 0
    · rw [cosineDistance, cosineDistance,
        if_neg (show ¬a.length ≠ b.length from by simp [hl]),
        if_neg (show ¬b.length ≠ a.length from by simp [hl]),
        if_pos hz, if_pos (Or.symm hz)]
    · rw [cosineDistance, cosineDistance,
        if_neg (show ¬a.length ≠ b.length from by simp [hl]),
        if_neg (show ¬b.length ≠ a.length from by simp [hl]),
        if_neg hz,
        if_neg (show ¬(normSq b = 0 ∨ normSq a = 0) from
          fun h => hz (Or.symm h)),
        dotList_comm, mul_comm (Real.sqrt (normSq a)) (Real.sqrt (normSq b))]
  · rw [cosineDistance, cosineDistance,
      if_pos (show a.length ≠ b.length from hl),
      if_pos (show b.length ≠ a.length from fun h => hl h.symm)]

theorem cosineDistance_self_zero {a : List ℝ} (h : normSq a ≠ 0) :
    cosineDistance a a = 0 := by
  rw [cosineDistance, if_neg (by simp), if_neg (by simp [h])]
  rw [dotList_self, Real.mul_self_sqrt (normSq_nonneg a), div_self h]
  ring

theorem cosineDistance_degenerate {a b : List ℝ}
    (h : a.length ≠ b.length ∨ normSq a = 0 ∨ normSq b = 0) :
    cosineDistance a b = 1 := by
  rw [cosineDistance]
  rcases h with h | h
  · rw [if_pos h]
  · by_cases hl : a.length ≠ b.length
    · rw [if_pos hl]
    · rw [if_neg hl, if_pos h]

/-- C3: cosine distance is symmetric; it is zero on every vector with a
non-zero entry paired with itself; and it is exactly 1 whenever the two
vectors have different lengths or either consists entirely of zeros. -/
theorem cosineDistance_symm_self_degenerate :
    (∀ a b : List ℝ, cosineDistance a b = cosineDistance b a) ∧
      (∀ a : List ℝ, (∃ x ∈ a, x ≠ 0) → cosineDistance a a = 0) ∧
      (∀ a b : List ℝ,
        a.length ≠ b.length ∨ (∀ x ∈ a, x = 0) ∨ (∀ x ∈ b, x = 0) →
          cosineDistance a b = 1) := by
  refine ⟨cosineDistance_comm, ?_, ?_⟩
  · intro a ha
    apply cosineDistance_self_zero
    rw [Ne, normSq_eq_zero_iff]
    intro hall
    obtain ⟨x, hx, hxne⟩ := ha
    exact hxne (hall x hx)
  · intro a b h
    apply cosineDistance_degenerate
    rcases h with h | h | h
    · exact Or.inl h
    · exact Or.inr (Or.inl ((normSq_eq_zero_iff a).mpr h))
    · exact Or.inr (Or.inr ((normSq_eq_zero_iff b).mpr h))

/-- C3 witness: on the concrete non-zero vector `[1]` the self-distance is
zero, and against the empty vector (mismatched lengths) the distance is
exactly 1. -/
theorem cosineDistance_symm_self_degenerate_witness :
    (∃ x ∈ [(1 : ℝ)], x ≠ 0) ∧ cosineDistance [(1 : ℝ)] [(1 : ℝ)] = 0 ∧
      cosineDistance [(1 : ℝ)] [] = 1 :=
  ⟨⟨1, by simp⟩,
    cosineDistance_symm_self_degenerate.2.1 [(1 : ℝ)] ⟨1, by simp⟩,
    cosineDistance_symm_self_degenerate.2.2 [(1 : ℝ)] [] (Or.inl (by simp))⟩

/-- C4: the cosine-distance computation is a total function (it is defined
as a Lean function into `ℝ`, never an error), and on every degenerate input
— mismatched lengths or a zero-magnitude vector — it returns the maximal
distance 1 rather than failing. -/
theorem cosineDistance_total_degenerate (a b : List ℝ)
    (h : a.length ≠ b.length ∨ normSq a = 0 ∨ normSq b = 0) :
    cosineDistance a b = 1 :=
  cosineDistance_degenerate h

/-- C4 witness: the empty vector against `[1]` has mismatched lengths and
distance exactly 1. -/
theorem cosineDistance_total_degenerate_witness :
    (([] : List ℝ).length ≠ [(1 : ℝ)].length ∨ normSq [] = 0 ∨
        normSq [(1 : ℝ)] = 0) ∧
      cosineDistance [] [(1 : ℝ)] = 1 :=
  ⟨Or.inl (by simp),
    cosineDistance_total_degenerate [] [(1 : ℝ)] (Or.inl (by simp))⟩

/-! The context assembler. -/

theorem jcAux_eq (cs : List (List Char)) :
    ∀ i acc, jcAux i cs acc =
      acc ++ ((List.enumFrom (i + 1) cs).map
        (fun q => assembleBlock 2000 q.1 q.2)).flatten := by
  induction cs with
  | nil => intro i acc; simp [jcAux, List.enumFrom]
  | cons c rest ih =>
    intro i acc
    rw [jcAux, ih]
    simp [List.enumFrom, assembleBlock, List.append_assoc]

/-- C9: the context assembler truncates every passage longer than 2000
characters to its first 2000 characters followed by an ellipsis marker, and
concatenates the passages in their given order, each preceded by a numbered
`[Conversation N]` header line and followed by a blank-line separator — it
coincides with the spec-side assembler contract at limit 2000. -/
theorem joinContexts_eq_assembleSpec (contexts : List (List Char)) :
    joinContexts contexts = assembleSpec contexts 2000 := by
  rw [joinContexts, jcAux_eq, assembleSpec]
  simp

/-! Decimal rendering and chunk identifiers. -/

theorem digitVal_decDigitChar {d : Nat} (h : d < 10) :
    digitVal (decDigitChar d) = d := by
  have hall : ∀ e, e < 10 → digitVal (decDigitChar e) = e := by decide
  exact hall d h

theorem decVal_append_digit (xs : List Char) (c : Char) :
    decVal (xs ++ [c]) = decVal xs * 10 + digitVal c := by
  rw [decVal, decVal, List.foldl_append]
  rfl

theorem decVal_decCharsCore :
    ∀ fuel n, n < fuel → decVal (decCharsCore fuel n) = n := by
  intro fuel
  induction fuel with
  | zero => intro n h; exact absurd h (Nat.not_lt_zero n)
  | succ f ih =>
    intro n h
    rw [decCharsCore]
    by_cases h10 : n < 10
    · rw [if_pos h10, decVal]
      simpa using digitVal_decDigitChar h10
    · rw [if_neg h10, decVal_append_digit,
        ih (n / 10) ?_, digitVal_decDigitChar (Nat.mod_lt n (by norm_num))]
      · omega
      · have h1 : n / 10 < n :=
          Nat.div_lt_self (by omega) (by norm_num)
        omega

theorem decVal_decChars (n : Nat) : decVal (decChars n) = n :=
  decVal_decCharsCore (n + 1) n (Nat.lt_succ_self n)

theorem decChars_injective {m n : Nat} (h : decChars m = decChars n) : m = n := by
  rw [← decVal_decChars m, ← decVal_decChars n, h]

theorem decDigitChar_ne_underscore (d : Nat) : decDigitChar d ≠ '_' := by
  rw [decDigitChar]
  split_ifs <;> decide

theorem decCharsCore_no_underscore :
    ∀ fuel n, '_' ∉ decCharsCore fuel n := by
  intro fuel
  induction fuel with
  | zero => intro n; simp [decCharsCore]
  | succ f ih =>
    intro n
    rw [decCharsCore]
    by_cases h10 : n < 10
    · rw [if_pos h10]
      simp [decDigitChar_ne_underscore n]
      intro hc
      exact decDigitChar_ne_underscore n hc.symm
    · rw [if_neg h10]
      intro hmem
      rcases List.mem_append.mp hmem with hm | hm
      · exact ih (n / 10) hm
      · rcases List.mem_singleton.mp hm with hm
        exact decDigitChar_ne_underscore (n % 10) hm.symm

theorem decChars_no_underscore (n : Nat) : '_' ∉ decChars n :=
  decCharsCore_no_underscore (n + 1) n

theorem underscore_split :
    ∀ d e u v : List Char, '_' ∉ d → '_' ∉ e →
      d ++ '_' :: u = e ++ '_' :: v → d = e ∧ u = v := by
  intro d
  induction d with
  | nil =>
    intro e u v _ he h
    cases e with
    | nil => simpa using h
    | cons c e2 =>
      simp only [List.nil_append, List.cons_append, List.cons.injEq] at h
      exact absurd (List.mem_cons.mpr (Or.inl h.1)) he
  | cons c d2 ih =>
    intro e u v hd he h
    cases e with
    | nil =>
      simp only [List.cons_append, List.nil_append, List.cons.injEq] at h
      exact absurd (List.mem_cons.mpr (Or.inl h.1.symm)) hd
    | cons c2 e2 =>
      simp only [List.cons_append, List.cons.injEq] at h
      obtain ⟨hc, htail⟩ := h
      have := ih e2 u v (fun hm => hd (by simp [hm])) (fun hm => he (by simp [hm])) htail
      exact ⟨by rw [hc, this.1], this.2⟩

theorem chunkId_injective {d e : List Char} {i j : Nat}
    (hd : '_' ∉ d) (he : '_' ∉ e) (h : chunkId d i = chunkId e j) :
    d = e ∧ i = j := by
  rw [chunkId, chunkId] at h
  obtain ⟨h1, h2⟩ := underscore_split d e (decChars i) (decChars j) hd he h
  exact ⟨h1, decChars_injective h2⟩

/-! The chunk rows written for one document. -/

theorem chunkRows_ID (d ct : List Char) :
    (chunkRows d ct).map (fun c => c.ID) =
      (List.range (chunkText ct 800).length).map (chunkId d) := by
  rw [chunkRows, List.map_map, ← List.enum_map_fst (chunkText ct 800),
    List.map_map]
  rfl

theorem chunkRows_positions (d ct : List Char) :
    (chunkRows d ct).map (fun c => c.Position) =
      List.range (chunkText ct 800).length := by
  rw [chunkRows, List.map_map, ← List.enum_map_fst (chunkText ct 800)]
  rfl

theorem chunkRows_ID_nodup (d ct : List Char) (hd : '_' ∉ d) :
    ((chunkRows d ct).map (fun c => c.ID)).Nodup := by
  rw [chunkRows_ID]
  exact (List.nodup_range _).map
    (fun i j h => (chunkId_injective hd hd h).2)

theorem chunkRows_ConvID {d ct : List Char} {c : Chunk}
    (h : c ∈ chunkRows d ct) : c.ConvID = d := by
  rw [chunkRows] at h
  obtain ⟨p, _, hpc⟩ := List.mem_map.mp h
  rw [← hpc]

theorem chunkRows_ID_form {d ct : List Char} {c : Chunk}
    (h : c ∈ chunkRows d ct) : ∃ i, c.ID = chunkId d i := by
  rw [chunkRows] at h
  obtain ⟨p, _, hpc⟩ := List.mem_map.mp h
  exact ⟨p.1, by rw [← hpc]⟩

/-! The effect of a sequence of chunk upserts. -/

theorem upsertChunk_foldl (news : List Chunk) :
    ∀ tbl, ((news.map (fun c => c.ID)).Nodup) →
      news.foldl upsertChunk tbl =
        tbl.filter (fun x => decide (∀ c ∈ news, x.ID ≠ c.ID)) ++ news := by
  induction news with
  | nil =>
    intro tbl _
    rw [List.foldl_nil, List.append_nil]
    exact (List.filter_eq_self.mpr (fun a _ => by simp)).symm
  | cons c news ih =>
    intro tbl hnodup
    rw [List.map_cons, List.nodup_cons] at hnodup
    rw [List.foldl_cons, ih (upsertChunk tbl c) hnodup.2, upsertChunk,
      List.filter_append, List.filter_filter]
    have hc : (List.filter (fun x => decide (∀ d ∈ news, x.ID ≠ d.ID)) [c]) = [c] := by
      rw [List.filter_eq_self]
      intro a ha
      rw [List.mem_singleton] at ha
      subst ha
      rw [decide_eq_true_iff]
      intro d hd heq
      exact hnodup.1 (heq ▸ List.mem_map_of_mem (fun x => x.ID) hd)
    rw [hc]
    rw [List.filter_congr (fun x _ => ?_), List.append_assoc, List.singleton_append]
    rw [Bool.eq_iff_iff, Bool.and_eq_true, decide_eq_true_iff,
      decide_eq_true_iff, decide_eq_true_iff, List.forall_mem_cons]
    tauto

/-! Reindexing at the chunk-table level. -/

theorem chunkSetOf_append (a b : List Chunk) (d : List Char) :
    chunkSetOf (a ++ b) d = chunkSetOf a d ++ chunkSetOf b d := by
  rw [chunkSetOf, chunkSetOf, chunkSetOf, List.filter_append]

theorem chunkSetOf_chunkRows_self (d ct : List Char) :
    chunkSetOf (chunkRows d ct) d = chunkRows d ct := by
  rw [chunkSetOf, List.filter_eq_self]
  intro a ha
  rw [decide_eq_true_iff]
  exact chunkRows_ConvID ha

theorem chunkSetOf_chunkRows_other {d e ct : List Char} (hne : e ≠ d) :
    chunkSetOf (chunkRows e ct) d = [] := by
  rw [chunkSetOf, List.filter_eq_nil_iff]
  intro a ha
  rw [decide_eq_true_iff, chunkRows_ConvID ha]
  exact fun h => hne h

theorem mem_chunkSetOf {tbl : List Chunk} {d : List Char} {c : Chunk} :
    c ∈ chunkSetOf tbl d ↔ c ∈ tbl ∧ c.ConvID = d := by
  rw [chunkSetOf, List.mem_filter, decide_eq_true_iff]

theorem chunkSetOf_reindex_preserved (docs : List (List Char × List Char)) :
    ∀ (tbl : List Chunk) (d : List Char), '_' ∉ d →
      d ∉ docs.map Prod.fst → (∀ e ∈ docs, '_' ∉ e.1) →
      (∀ ch ∈ tbl, ch.ConvID = d → ∃ i, ch.ID = chunkId d i) →
      chunkSetOf (reindexChunks docs tbl) d = chunkSetOf tbl d := by
  induction docs with
  | nil => intro tbl d _ _ _ _; rfl
  | cons e rest ih =>
    intro tbl d hdus hdnot hus hinv
    have heus : '_' ∉ e.1 := hus e (by simp)
    have hde : d ≠ e.1 := by
      intro h
      exact hdnot (by rw [h]; exact List.mem_map_of_mem Prod.fst (by simp))
    rw [reindexChunks, List.foldl_cons,
      show (List.foldl (fun t dd => List.foldl upsertChunk t (chunkRows dd.1 dd.2))
        (List.foldl upsertChunk tbl (chunkRows e.1 e.2)) rest) =
        reindexChunks rest (List.foldl upsertChunk tbl (chunkRows e.1 e.2)) from rfl]
    rw [upsertChunk_foldl (chunkRows e.1 e.2) tbl (chunkRows_ID_nodup e.1 e.2 heus)]
    have hsame : chunkSetOf
        (tbl.filter (fun x => decide (∀ c ∈ chunkRows e.1 e.2, x.ID ≠ c.ID)) ++
          chunkRows e.1 e.2) d = chunkSetOf tbl d := by
      rw [chunkSetOf_append, chunkSetOf_chunkRows_other (fun h => hde h.symm),
        List.append_nil, chunkSetOf, chunkSetOf, List.filter_filter]
      apply List.filter_congr
      intro x hx
      rw [Bool.eq_iff_iff, Bool.and_eq_true, decide_eq_true_iff,
        decide_eq_true_iff]
      constructor
      · exact fun h => h.1
      · intro hcd
        refine ⟨hcd, ?_⟩
        intro c hc heq
        obtain ⟨i, hi⟩ := hinv x hx hcd
        obtain ⟨j, hj⟩ := chunkRows_ID_form hc
        rw [hi, hj] at heq
        exact hde (chunkId_injective hdus heus heq).1
    rw [← hsame]
    apply ih _ d hdus (fun h => hdnot (by simp [h])) (fun q hq => hus q (by simp [hq]))
    intro ch hch hchd
    rcases List.mem_append.mp hch with hm | hm
    · exact hinv ch (List.mem_of_mem_filter hm) hchd
    · exact absurd (chunkRows_ConvID hm) (fun h => hde (hchd.symm.trans h))

theorem reindexChunks_spec (docs : List (List Char × List Char)) :
    ∀ (tbl : List Chunk) (d ct : List Char),
      (d, ct) ∈ docs → (docs.map Prod.fst).Nodup →
      (∀ e ∈ docs, '_' ∉ e.1) →
      (∀ ch ∈ tbl, ch.ConvID = d →
        ch.ID ∈ (chunkRows d ct).map (fun c => c.ID)) →
      chunkSetOf (reindexChunks docs tbl) d = chunkRows d ct := by
  induction docs with
  | nil => intro tbl d ct hmem; simp at hmem
  | cons e rest ih =>
    intro tbl d ct hmem hnodup hus hpre
    have heus : '_' ∉ e.1 := hus e (by simp)
    rw [List.map_cons, List.nodup_cons] at hnodup
    rw [reindexChunks, List.foldl_cons,
      show (List.foldl (fun t dd => List.foldl upsertChunk t (chunkRows dd.1 dd.2))
        (List.foldl upsertChunk tbl (chunkRows e.1 e.2)) rest) =
        reindexChunks rest (List.foldl upsertChunk tbl (chunkRows e.1 e.2)) from rfl]
    rw [upsertChunk_foldl (chunkRows e.1 e.2) tbl (chunkRows_ID_nodup e.1 e.2 heus)]
    rcases List.mem_cons.mp hmem with hhead | htail
    · have hd1 : d = e.1 := by rw [← hhead]
      have hct : ct = e.2 := by rw [← hhead]
      rw [← hd1, ← hct]
      have hus_d : '_' ∉ d := hd1 ▸ heus
      have hdrest : d ∉ rest.map Prod.fst := hd1 ▸ hnodup.1
      have hflt : chunkSetOf
          (tbl.filter (fun x => decide (∀ c ∈ chunkRows d ct, x.ID ≠ c.ID)) ++
            chunkRows d ct) d = chunkRows d ct := by
        rw [chunkSetOf_append, chunkSetOf_chunkRows_self]
        rw [chunkSetOf, List.filter_filter]
        rw [show (List.filter
            (fun a => decide (a.ConvID = d) &&
              decide (∀ c ∈ chunkRows d ct, a.ID ≠ c.ID)) tbl) = [] from ?_,
          List.nil_append]
        rw [List.filter_eq_nil_iff]
        intro a ha hcond
        rw [Bool.and_eq_true, decide_eq_true_iff, decide_eq_true_iff] at hcond
        obtain ⟨hconv, hnotin⟩ := hcond
        obtain ⟨c0, hc0, hc0id⟩ := List.mem_map.mp (hpre a ha hconv)
        exact hnotin c0 hc0 hc0id.symm
      rw [chunkSetOf_reindex_preserved rest _ d hus_d hdrest
        (fun q hq => hus q (by simp [hq])) ?_, hflt]
      · intro ch hch hchd
        rcases List.mem_append.mp hch with hm | hm
        · rw [List.mem_filter] at hm
          obtain ⟨c0, hc0, hc0id⟩ := List.mem_map.mp (hpre ch hm.1 hchd)
          have := hm.2
          rw [decide_eq_true_iff] at this
          exact absurd hc0id.symm (this c0 hc0)
        · exact chunkRows_ID_form hm
    · have hd2 : d ∈ rest.map Prod.fst :=
        List.mem_map_of_mem Prod.fst htail
      have hde : e.1 ≠ d := fun h => hnodup.1 (h ▸ hd2)
      apply ih _ d ct htail hnodup.2 (fun q hq => hus q (by simp [hq]))
      intro ch hch hchd
      rcases List.mem_append.mp hch with hm | hm
      · exact hpre ch (List.mem_of_mem_filter hm) hchd
      · exact absurd (chunkRows_ConvID hm) (fun h => hde (h.symm.trans hchd))

/-! Lifting the chunk-table analysis to the store. -/

theorem foldl_uploadStep_chunks (embed : List Char → List ℝ)
    (rows : List Chunk) :
    ∀ s : Store, (rows.foldl (uploadStep embed) s).chunks =
      rows.foldl upsertChunk s.chunks := by
  induction rows with
  | nil => intro s; rfl
  | cons ch rows ih =>
    intro s
    rw [List.foldl_cons, List.foldl_cons, ih]
    rfl

theorem reindexStore_chunks_eq (embed : List Char → List ℝ) :
    ∀ (convs : List Conversation) (s : Store),
      ((convs.foldl (fun s2 cv =>
          (chunkRows cv.ID cv.Content).foldl (uploadStep embed) s2) s).chunks) =
        reindexChunks (convs.map (fun c => (c.ID, c.Content))) s.chunks := by
  intro convs
  induction convs with
  | nil => intro s; rfl
  | cons cv convs ih =>
    intro s
    rw [List.foldl_cons, ih, foldl_uploadStep_chunks]
    rfl

theorem reindexStore_chunks (st : Store) (embed : List Char → List ℝ) :
    (reindexStore st embed).chunks =
      reindexChunks (st.convs.map (fun c => (c.ID, c.Content))) st.chunks :=
  reindexStore_chunks_eq embed st.convs st

/-- C5 counterexample: reindexing a store holding the document `"hi"` with
id `d` plus one stale chunk row `d_5` at position 5 does not replace the
document's chunk set wholesale — the stale chunk survives (reindex never
deletes), so the resulting chunk set is not the re-chunked set and its
positions are not contiguous from 0. -/
theorem reindex_stale_chunk_counterexample :
    chunkSetOf
        (reindexStore
          ⟨[⟨['d'], ['h', 'i']⟩], [],
            [⟨['d', '_', '5'], ['d'], ['x'], 5⟩], []⟩
          (fun _ => [])).chunks ['d'] ≠
      chunkRows ['d'] ['h', 'i'] ∧
    (⟨['d', '_', '5'], ['d'], ['x'], 5⟩ : Chunk) ∈
      (reindexStore
        ⟨[⟨['d'], ['h', 'i']⟩], [],
          [⟨['d', '_', '5'], ['d'], ['x'], 5⟩], []⟩
        (fun _ => [])).chunks ∧
    chunkRows ['d'] ['h', 'i'] =
      [⟨chunkId ['d'] 0, ['d'], ['h', 'i'], 0⟩] := by
  refine ⟨by decide, by decide, by decide⟩

/-- C5 (amended): assume every pre-existing chunk of the document has one of
the ids the re-chunking writes (as holds for every store produced by this
program's own upload/reindex, whose chunker is deterministic with a fixed
target size), and that document ids are distinct and underscore-free (they
are SHA-256 hex digests).  Then after reindex the document's chunk set is
exactly the re-chunked set of its current content, whose positions are
contiguous starting at 0 with no duplicates.  Without that assumption the
old chunk set is not replaced wholesale: chunks outside the new id range
are never deleted (see the counterexample). -/
theorem reindex_replaces_chunks (st : Store) (embed : List Char → List ℝ)
    (cv : Conversation) (hcv : cv ∈ st.convs)
    (hnodup : (st.convs.map (fun c => c.ID)).Nodup)
    (hus : ∀ dv ∈ st.convs, '_' ∉ dv.ID)
    (hpre : ∀ ch ∈ st.chunks, ch.ConvID = cv.ID →
      ch.ID ∈ (chunkRows cv.ID cv.Content).map (fun c => c.ID)) :
    chunkSetOf (reindexStore st embed).chunks cv.ID =
        chunkRows cv.ID cv.Content ∧
      (chunkRows cv.ID cv.Content).map (fun c => c.Position) =
        List.range (chunkText cv.Content 800).length ∧
      ((chunkRows cv.ID cv.Content).map (fun c => c.Position)).Nodup := by
  refine ⟨?_, chunkRows_positions _ _, ?_⟩
  · rw [reindexStore_chunks]
    apply reindexChunks_spec
    · exact List.mem_map_of_mem (fun c => (c.ID, c.Content)) hcv
    · rw [List.map_map]
      exact hnodup
    · intro e he
      obtain ⟨c0, hc0, hpair⟩ := List.mem_map.mp he
      rw [← hpair]
      exact hus c0 hc0
    · exact hpre
  · rw [chunkRows_positions]
    exact List.nodup_range _

/-- C5 witness: reindexing a store with the single document `"hi"` under id
`d` and no pre-existing chunks leaves exactly the one re-chunked chunk at
position 0 as the document's chunk set. -/
theorem reindex_replaces_chunks_witness :
    ((⟨['d'], ['h', 'i']⟩ : Conversation) ∈
        ([⟨['d'], ['h', 'i']⟩] : List Conversation)) ∧
      chunkSetOf
          (reindexStore ⟨[⟨['d'], ['h', 'i']⟩], [], [], []⟩
            (fun _ => [])).chunks ['d'] =
        chunkRows ['d'] ['h', 'i'] :=
  ⟨by decide,
    (reindex_replaces_chunks ⟨[⟨['d'], ['h', 'i']⟩], [], [], []⟩ (fun _ => [])
      ⟨['d'], ['h', 'i']⟩ (by decide) (by decide) (by decide) (by simp)).1⟩

/-! The retrieval stage of `primeCmd`. -/

theorem searchChunks_length (st : Store) (q : List ℝ) (lim : Nat) (thr : ℝ) :
    (searchChunks st q lim thr).length ≤ lim := by
  rw [searchChunks]
  exact List.length_take_le lim _

theorem searchEmbeddings_nil (q : List ℝ) (lim : Nat) (thr : ℝ) :
    searchEmbeddings [] q lim thr = [] := by
  simp [searchEmbeddings]

/-- C6: with any chunk embeddings present, retrieval only ever serves
chunk-granularity passages, at most 10 of them, each the content of a
stored chunk whose embedding lies within distance 0.45 of the query; with
no chunk embeddings it serves document-granularity passages, at most 5,
each the content of a stored conversation whose embedding lies within the
threshold; and whenever the respective search survives nothing — in
particular on an empty store — the outcome is the no-relevant-context
report, not an error. -/
theorem primeRetrieve_granularity (st : Store) (q : List ℝ) :
    (hasChunks st = true →
      (∀ g texts, primeRetrieve st q = .passages g texts →
        g = .chunk ∧ texts.length ≤ 10 ∧
        ∀ p ∈ texts, ∃ ch ∈ st.chunks, ∃ v, (ch.ID, v) ∈ st.chunkEmbeds ∧
          p = ch.Content ∧ cosineDistance q v ≤ (0.45 : ℝ)) ∧
      (searchChunks st q 10 (0.45 : ℝ) = [] →
        primeRetrieve st q = .noContext)) ∧
    (hasChunks st = false →
      (∀ g texts, primeRetrieve st q = .passages g texts →
        g = .document ∧ texts.length ≤ 5 ∧
        ∀ p ∈ texts, ∃ cv ∈ st.convs, p = cv.Content ∧
          ∃ v, (cv.ID, v) ∈ st.convEmbeds ∧
            cosineDistance q v ≤ (0.45 : ℝ)) ∧
      (searchEmbeddings st.convEmbeds q 5 (0.45 : ℝ) = [] →
        primeRetrieve st q = .noContext)) ∧
    (st.chunkEmbeds = [] ∧ st.convEmbeds = [] →
      primeRetrieve st q = .noContext) := by
  refine ⟨?_, ?_, ?_⟩
  · intro hc
    constructor
    · intro g texts hout
      rw [primeRetrieve, if_pos hc] at hout
      by_cases hres : (searchChunks st q 10 (0.45 : ℝ)).isEmpty
      · rw [if_pos hres] at hout
        exact absurd hout (by simp)
      · rw [if_neg hres] at hout
        injection hout with hg htexts
        refine ⟨hg.symm, ?_, ?_⟩
        · rw [← htexts, List.length_map]
          exact searchChunks_length st q 10 (0.45 : ℝ)
        · intro p hp
          rw [← htexts] at hp
          obtain ⟨r, hr, hrc⟩ := List.mem_map.mp hp
          obtain ⟨ch, hch, v, hv, _, hcontent, hdist, hthr⟩ :=
            mem_searchChunks hr
          exact ⟨ch, hch, v, hv, by rw [← hrc, hcontent], hdist ▸ hthr⟩
    · intro hres
      rw [primeRetrieve, if_pos hc, if_pos (by rw [hres]; rfl)]
  · intro hc
    have hcond : ¬(hasChunks st = true) := by rw [hc]; simp
    constructor
    · intro g texts hout
      rw [primeRetrieve, if_neg hcond] at hout
      by_cases hres : (searchEmbeddings st.convEmbeds q 5 (0.45 : ℝ)).isEmpty
      · rw [if_pos hres] at hout
        exact absurd hout (by simp)
      · rw [if_neg hres] at hout
        by_cases hctx : ((searchEmbeddings st.convEmbeds q 5 (0.45 : ℝ)).filterMap
            (fun r => (getConv st r.ID).map (fun c => c.Content))).isEmpty
        · rw [if_pos hctx] at hout
          exact absurd hout (by simp)
        · rw [if_neg hctx] at hout
          injection hout with hg htexts
          refine ⟨hg.symm, ?_, ?_⟩
          · rw [← htexts]
            exact le_trans (List.length_filterMap_le _ _)
              (searchEmbeddings_length st.convEmbeds q 5 (0.45 : ℝ))
          · intro p hp
            rw [← htexts] at hp
            obtain ⟨r, hr, hrp⟩ := List.mem_filterMap.mp hp
            obtain ⟨cv, hfind, hcvp⟩ := Option.map_eq_some'.mp hrp
            have hcv1 : cv ∈ st.convs := List.mem_of_find?_eq_some hfind
            have hfs := @List.find?_some Conversation
              (fun c => decide (c.ID = r.ID)) cv st.convs hfind
            have hcv2 : cv.ID = r.ID := of_decide_eq_true hfs
            obtain ⟨rowp, hrow, hrid, hrdist, hrthr⟩ := mem_searchEmbeddings hr
            refine ⟨cv, hcv1, hcvp.symm, rowp.2, ?_, hrdist ▸ hrthr⟩
            rw [hcv2, hrid]
            exact hrow
    · intro hres
      rw [primeRetrieve, if_neg hcond, if_pos (by rw [hres]; rfl)]
  · intro hempty
    have hcond : ¬(hasChunks st = true) := by
      rw [hasChunks, hempty.1]
      simp
    rw [primeRetrieve, if_neg hcond, hempty.2, searchEmbeddings_nil]
    rfl

/-- C6 witness: on the empty store every query yields the
no-relevant-context outcome. -/
theorem primeRetrieve_granularity_witness :
    ((⟨[], [], [], []⟩ : Store).chunkEmbeds = [] ∧
        (⟨[], [], [], []⟩ : Store).convEmbeds = []) ∧
      primeRetrieve ⟨[], [], [], []⟩ [] = .noContext :=
  ⟨⟨rfl, rfl⟩,
    (primeRetrieve_granularity ⟨[], [], [], []⟩ []).2.2 ⟨rfl, rfl⟩⟩

/-! Shape of the SHA-256 digest. -/

theorem shaRound_length (st : List Nat) (kw : Nat × Nat) :
    (shaRound st kw).length = st.length := by
  rcases st with _ | ⟨a, _ | ⟨b, _ | ⟨c, _ | ⟨d, _ | ⟨e, _ | ⟨f, _ |
    ⟨g, _ | ⟨h, _ | ⟨i, rest⟩⟩⟩⟩⟩⟩⟩⟩⟩ <;> rfl

theorem foldl_shaRound_length (l : List (Nat × Nat)) :
    ∀ H : List Nat, (l.foldl shaRound H).length = H.length := by
  induction l with
  | nil => intro H; rfl
  | cons kw l ih =>
    intro H
    rw [List.foldl_cons, ih, shaRound_length]

theorem processBlock_length (H block : List Nat) :
    (processBlock H block).length = H.length := by
  rw [processBlock, List.length_zipWith, foldl_shaRound_length]
  exact Nat.min_self _

theorem mem_zipWith_w32 (l1 : List Nat) :
    ∀ (l2 : List Nat) (x : Nat),
      x ∈ List.zipWith (fun a b => w32 (a + b)) l1 l2 → x < 2 ^ 32 := by
  induction l1 with
  | nil => intro l2 x hx; simp at hx
  | cons a l1 ih =>
    intro l2 x hx
    cases l2 with
    | nil => simp at hx
    | cons b l2 =>
      rw [List.zipWith_cons_cons, List.mem_cons] at hx
      rcases hx with hx | hx
      · rw [hx, w32]
        exact Nat.mod_lt _ (by norm_num)
      · exact ih l2 x hx

theorem processBlock_bounded (H block : List Nat) :
    ∀ x ∈ processBlock H block, x < 2 ^ 32 := by
  intro x hx
  rw [processBlock] at hx
  exact mem_zipWith_w32 H _ x hx

theorem sha256Words_spec (msg : List Nat) :
    (sha256Words msg).length = 8 ∧ ∀ x ∈ sha256Words msg, x < 2 ^ 32 := by
  rw [sha256Words]
  have hinv : ∀ (blocks : List (List Nat)) (H : List Nat), H.length = 8 →
      (∀ x ∈ H, x < 2 ^ 32) →
      (blocks.foldl processBlock H).length = 8 ∧
        ∀ x ∈ blocks.foldl processBlock H, x < 2 ^ 32 := by
    intro blocks
    induction blocks with
    | nil => intro H h1 h2; exact ⟨h1, h2⟩
    | cons b blocks ih =>
      intro H h1 h2
      rw [List.foldl_cons]
      exact ih (processBlock H b) (by rw [processBlock_length, h1])
        (processBlock_bounded H b)
  exact hinv _ shaH0 (by decide) (by decide)

theorem wordsToNat_lt : ∀ l : List Nat, wordsToNat l < 2 ^ (32 * l.length) := by
  intro l
  induction l with
  | nil => rw [wordsToNat]; norm_num
  | cons h t ih =>
    rw [wordsToNat]
    have hmod : h % 2 ^ 32 < 2 ^ 32 := Nat.mod_lt _ (by norm_num)
    have hstep : h % 2 ^ 32 * 2 ^ (32 * t.length) + wordsToNat t <
        (h % 2 ^ 32 + 1) * 2 ^ (32 * t.length) := by
      rw [Nat.add_mul, one_mul]
      omega
    have hle : (h % 2 ^ 32 + 1) * 2 ^ (32 * t.length) ≤
        2 ^ 32 * 2 ^ (32 * t.length) :=
      Nat.mul_le_mul_right _ hmod
    calc h % 2 ^ 32 * 2 ^ (32 * t.length) + wordsToNat t
        < (h % 2 ^ 32 + 1) * 2 ^ (32 * t.length) := hstep
      _ ≤ 2 ^ 32 * 2 ^ (32 * t.length) := hle
      _ = 2 ^ (32 * (h :: t).length) := by
          rw [List.length_cons, Nat.mul_succ, Nat.pow_add, Nat.mul_comm]

theorem wordsToNat_inj : ∀ l1 l2 : List Nat, l1.length = l2.length →
    (∀ x ∈ l1, x < 2 ^ 32) → (∀ x ∈ l2, x < 2 ^ 32) →
    wordsToNat l1 = wordsToNat l2 → l1 = l2 := by
  intro l1
  induction l1 with
  | nil =>
    intro l2 hlen _ _ _
    cases l2 with
    | nil => rfl
    | cons b t2 => simp at hlen
  | cons a t1 ih =>
    intro l2 hlen hb1 hb2 heq
    cases l2 with
    | nil => simp at hlen
    | cons b t2 =>
      have htlen : t1.length = t2.length := by
        simpa using hlen
      rw [wordsToNat, wordsToNat, htlen,
        Nat.mod_eq_of_lt (hb1 a (by simp)),
        Nat.mod_eq_of_lt (hb2 b (by simp))] at heq
      have hr1 : wordsToNat t1 < 2 ^ (32 * t2.length) := htlen ▸ wordsToNat_lt t1
      have hr2 : wordsToNat t2 < 2 ^ (32 * t2.length) := wordsToNat_lt t2
      have hab : a = b := by
        rcases Nat.lt_trichotomy a b with hlt | heqh | hgt
        · exfalso
          have : a * 2 ^ (32 * t2.length) + wordsToNat t1 <
              b * 2 ^ (32 * t2.length) + wordsToNat t2 := by
            calc a * 2 ^ (32 * t2.length) + wordsToNat t1
                < a * 2 ^ (32 * t2.length) + 2 ^ (32 * t2.length) := by omega
              _ = (a + 1) * 2 ^ (32 * t2.length) := by ring
              _ ≤ b * 2 ^ (32 * t2.length) :=
                  Nat.mul_le_mul_right _ hlt
              _ ≤ b * 2 ^ (32 * t2.length) + wordsToNat t2 :=
                  Nat.le_add_right _ _
          omega
        · exact heqh
        · exfalso
          have : b * 2 ^ (32 * t2.length) + wordsToNat t2 <
              a * 2 ^ (32 * t2.length) + wordsToNat t1 := by
            calc b * 2 ^ (32 * t2.length) + wordsToNat t2
                < b * 2 ^ (32 * t2.length) + 2 ^ (32 * t2.length) := by omega
              _ = (b + 1) * 2 ^ (32 * t2.length) := by ring
              _ ≤ a * 2 ^ (32 * t2.length) :=
                  Nat.mul_le_mul_right _ hgt
              _ ≤ a * 2 ^ (32 * t2.length) + wordsToNat t1 :=
                  Nat.le_add_right _ _
          omega
      subst hab
      have hteq : wordsToNat t1 = wordsToNat t2 := by omega
      rw [ih t2 htlen (fun x hx => hb1 x (by simp [hx]))
        (fun x hx => hb2 x (by simp [hx])) hteq]

/-- C7 counterexample: the claim that uploading different byte strings
always yields different ids is false — `hashContent` maps the infinitely
many byte strings into digests of 256 bits, so two distinct inputs must
collide (a cardinality fact; no concrete SHA-256 collision is known). -/
theorem hashContent_not_injective :
    ¬ ∀ a b : List Nat, a ≠ b → hashContent a ≠ hashContent b := by
  intro hinj
  have hbound : ∀ l : List Nat, wordsToNat (sha256Words l) < 2 ^ 256 := by
    intro l
    have h := wordsToNat_lt (sha256Words l)
    rw [(sha256Words_spec l).1] at h
    exact h
  obtain ⟨a, b, hne, hf⟩ := Finite.exists_ne_map_eq_of_infinite
    (fun l : List Nat => (⟨wordsToNat (sha256Words l), hbound l⟩ : Fin (2 ^ 256)))
  have hval : wordsToNat (sha256Words a) = wordsToNat (sha256Words b) :=
    congrArg Fin.val hf
  have hwords : sha256Words a = sha256Words b :=
    wordsToNat_inj _ _
      (by rw [(sha256Words_spec a).1, (sha256Words_spec b).1])
      (sha256Words_spec a).2 (sha256Words_spec b).2 hval
  exact hinj a b hne (by rw [hashContent, hashContent, hwords])

/-! Idempotent upload. -/

theorem foldl_uploadStep_convs (embed : List Char → List ℝ)
    (rows : List Chunk) :
    ∀ s : Store, (rows.foldl (uploadStep embed) s).convs = s.convs := by
  induction rows with
  | nil => intro s; rfl
  | cons ch rows ih =>
    intro s
    rw [List.foldl_cons, ih]
    rfl

theorem saveConv_filter_self (s : Store) (c : Conversation) :
    (saveConv s c).convs.filter (fun x => decide (x.ID = c.ID)) = [c] := by
  rw [saveConv]
  simp only [List.filter_append, List.filter_filter]
  rw [show (s.convs.filter (fun a => decide (a.ID = c.ID) &&
      decide (a.ID ≠ c.ID))) = [] from ?_, List.nil_append]
  · rw [List.filter_eq_self]
    intro a ha
    rw [List.mem_singleton] at ha
    subst ha
    simp
  · rw [List.filter_eq_nil_iff]
    intro a _ hcond
    rw [Bool.and_eq_true, decide_eq_true_iff, decide_eq_true_iff] at hcond
    exact hcond.2 hcond.1

/-- C7 (amended): uploading the same non-empty byte string twice yields the
same document id both times — the SHA-256 hex digest of the bytes — and the
store afterwards holds exactly one conversation row under that id (the
second upload overwrites).  Distinct byte strings may in principle collide:
any function from unbounded inputs into fixed 256-bit digests is
non-injective (see the counterexample), although no SHA-256 collision is
known. -/
theorem upload_idempotent_id (st : Store) (embed : List Char → List ℝ)
    (bs : List Char) (hne : bs ≠ []) :
    ∃ id st1 st2,
      upload st embed bs = some (id, st1) ∧
      upload st1 embed bs = some (id, st2) ∧
      id = hashContent (bs.map Char.toNat) ∧
      (st2.convs.filter (fun c => decide (c.ID = id))).length = 1 := by
  refine ⟨hashContent (bs.map Char.toNat),
    (chunkRows (hashContent (bs.map Char.toNat)) bs).foldl (uploadStep embed)
      (saveConv st ⟨hashContent (bs.map Char.toNat), bs⟩),
    (chunkRows (hashContent (bs.map Char.toNat)) bs).foldl (uploadStep embed)
      (saveConv ((chunkRows (hashContent (bs.map Char.toNat)) bs).foldl
          (uploadStep embed)
          (saveConv st ⟨hashContent (bs.map Char.toNat), bs⟩))
        ⟨hashContent (bs.map Char.toNat), bs⟩),
    ?_, ?_, rfl, ?_⟩
  · rw [upload, if_neg hne]
  · rw [upload, if_neg hne]
  · rw [foldl_uploadStep_convs]
    have := saveConv_filter_self
      ((chunkRows (hashContent (bs.map Char.toNat)) bs).foldl
        (uploadStep embed)
        (saveConv st ⟨hashContent (bs.map Char.toNat), bs⟩))
      ⟨hashContent (bs.map Char.toNat), bs⟩
    rw [this]
    rfl

/-- C7 witness: uploading the one-byte file `"h"` twice into the empty
store yields one id twice and a single stored row for it. -/
theorem upload_idempotent_id_witness :
    (['h'] : List Char) ≠ [] ∧
      ∃ id st1 st2,
        upload ⟨[], [], [], []⟩ (fun _ => []) ['h'] = some (id, st1) ∧
        upload st1 (fun _ => []) ['h'] = some (id, st2) ∧
        id = hashContent (List.map Char.toNat ['h']) ∧
        (st2.convs.filter (fun c => decide (c.ID = id))).length = 1 :=
  ⟨by decide,
    upload_idempotent_id ⟨[], [], [], []⟩ (fun _ => []) ['h'] (by decide)⟩

end Memctx
